import Mathlib

set_option maxRecDepth 8000

/-!
# Verification of the derived-anagram chain search engine

Shallow embedding of the core of `c_embedded_anagram_chain_demo`,
translated from the human implementation
(`src/impl/human/anagram_chain_core.c`, dynamic-memory mode, with the
PC-host configuration of `src/impl/human/config.h`) and the shared I/O
helpers (`src/impl/human/anagram_chain_io.c`).

Modelling conventions:
* C byte strings are `List Nat` (the byte values; the terminating NUL is
  implicit in the list length).  A NULL `char *` argument is `Option.none`
  where the code distinguishes it.
* Heap allocation is assumed to succeed (the `malloc`/`realloc` failure
  returns model nothing the claims talk about), and capacity fields that
  only drive reallocation are dropped.
* The `ASSERT_MSG` checks of assert.h are compiled in unconditionally
  and halt the process on failure (`exit(1)` on the PC host).  The
  per-byte assert of `sort_chars` is therefore modelled explicitly:
  `sort_chars` (and every function that runs it) returns `none` — no
  return value, no resulting store — for input containing a byte
  `≥ CHAR_COUNT_SIZE`.
* The hash table is modelled as the list of its entries in insertion
  order.  In the C code the FNV-1a hash only selects a bucket; both
  `hashtable_insert` and `hashtable_find` then compare the full signature
  bytes (`strcmp`), and an existing entry with the same signature is always
  merged, so which entry `hashtable_find` returns is independent of the
  hash function.  `hash_fnv1a` is still translated below for reference.
-/

namespace AnagramChain

/-! ## Configuration constants (config.h, PC-host values) -/

/-- `ASCII_MIN` from config.h. -/
def ASCII_MIN : Nat := 33

/-- `ASCII_MAX` from config.h. -/
def ASCII_MAX : Nat := 126

/-- `CHAR_COUNT_SIZE` from config.h (counting-sort alphabet size). -/
def CHAR_COUNT_SIZE : Nat := 128

/-- `POOL_MAX_WORD_LEN` from config.h (PC configuration). -/
def POOL_MAX_WORD_LEN : Nat := 257

/-- `MAX_WORD_LENGTH` from config.h: defined as `POOL_MAX_WORD_LEN`. -/
def MAX_WORD_LENGTH : Nat := POOL_MAX_WORD_LEN

/-- `POOL_MAX_WORDS` from config.h (PC configuration). -/
def POOL_MAX_WORDS : Nat := 1000000

/-- `MAX_CHAIN_DEPTH` from config.h. -/
def MAX_CHAIN_DEPTH : Nat := 256

/-- `MAX_CHAINS` from config.h: `POOL_MAX_CHAINS`, PC configuration. -/
def MAX_CHAINS : Nat := 16384

/-- `FNV_OFFSET_BASIS` from config.h. -/
def FNV_OFFSET_BASIS : Nat := 2166136261

/-- `FNV_PRIME` from config.h. -/
def FNV_PRIME : Nat := 16777619

/-- `hash_fnv1a` from anagram_chain_core.c (`unsigned long` is 64-bit on
the PC host).  Recorded for completeness: the bucket index it produces
never changes the entry `hashtable_find` returns (see module comment). -/
def hash_fnv1a (s : List Nat) : Nat :=
  s.foldl (fun h b => ((h ^^^ b) * FNV_PRIME) % 2 ^ 64) FNV_OFFSET_BASIS

/-! ## Signature normalizer -/

/-- The two loops of `sort_chars` (run once the per-byte assert has
passed): the first C loop tallies each byte value; the second emits, for
`c = 0, 1, …, 127` in ascending order, `counts[c]` copies of `c`. -/
def sort_chars_loops (s : List Nat) : List Nat :=
  (List.range CHAR_COUNT_SIZE).flatMap fun c => List.replicate (s.count c) c

/-- `sort_chars` from anagram_chain_core.c: counting sort over the
128-entry alphabet.  The tally loop runs
`ASSERT_MSG((unsigned char)s[i] < CHAR_COUNT_SIZE, "char out of range")`
on every byte (line 65); assert.h compiles the check in unconditionally
and a failure halts the process (`exit(1)` on the PC host).  The halt is
modelled as `none`: the function never returns for a byte `≥ 128`. -/
def sort_chars (s : List Nat) : Option (List Nat) :=
  if s.all fun b => b < CHAR_COUNT_SIZE then some (sort_chars_loops s)
  else none

/-- `compute_signature` from anagram_chain_core.c (dynamic mode): NULL
for a NULL word or a word that does not fit the 512-byte `temp_sig`
buffer, otherwise the counting-sorted copy of the word.  `none` covers
both the NULL return and (through `sort_chars`) the assert halt. -/
def compute_signature (word : List Nat) : Option (List Nat) :=
  if 512 ≤ word.length then none else sort_chars word

/-- `insert_sorted` from anagram_chain_core.c: splice `c` into `src`
immediately before the first element greater than `c` (or at the end). -/
def insert_sorted (src : List Nat) (c : Nat) : List Nat :=
  match src with
  | [] => [c]
  | x :: xs => if c < x then c :: x :: xs else x :: insert_sorted xs c

/-- The skip-scan loop of `is_derived_signature`
(anagram_chain_io.c lines 118-139): walk both strings in lockstep;
on a mismatch consume the single skip allowance on `s2`; at the end
require `s1` to be fully consumed. -/
def derivedScan : List Nat → List Nat → Bool → Bool
  | s1, [], _ => s1.isEmpty
  | [], _ :: ys, skip => if skip then false else derivedScan [] ys true
  | x :: xs, y :: ys, skip =>
    if x = y then derivedScan xs ys skip
    else if skip then false else derivedScan (x :: xs) ys true

/-- `is_derived_signature` from anagram_chain_io.c: the length guard
`n2 == n1 + 1` followed by the skip-scan.  (NULL arguments, which the C
code rejects, are not representable here.) -/
def is_derived_signature (s1 s2 : List Nat) : Bool :=
  if s2.length = s1.length + 1 then derivedScan s1 s2 false else false

/-- `is_valid_word` from anagram_chain_io.c: reject NULL (not modelled)
or empty words, any byte outside `[33,126]`, and length `≥ 256`. -/
def is_valid_word (word : List Nat) : Bool :=
  if word.isEmpty then false
  else if word.all fun b => 33 ≤ b && b ≤ 126 then decide (word.length < 256)
  else false

/-! ## Word store (Dictionary) -/

/-- `Dictionary` from anagram_chain.h: parallel arrays of words and
signatures; `count` is the length (capacity only drives reallocation). -/
structure Dictionary where
  words : List (List Nat)
  signatures : List (List Nat)
  deriving DecidableEq, Repr

/-- The empty store produced by `dictionary_create`. -/
def dictionary_create : Dictionary := ⟨[], []⟩

/-- `dictionary_add` from anagram_chain_core.c (dynamic mode): reject a
NULL word (`-1`); otherwise append the word and its counting-sorted copy
to the pools and return `0`.  No content validation is performed, but
computing the signature runs `sort_chars`, whose assert halts the
process for any byte `≥ 128` — that halt (no return, no resulting
store) is the outer `none`. -/
def dictionary_add (dict : Dictionary) (word : Option (List Nat)) :
    Option (Int × Dictionary) :=
  match word with
  | none => some (-1, dict)
  | some w =>
    match sort_chars w with
    | none => none
    | some sig => some (0, ⟨dict.words ++ [w], dict.signatures ++ [sig]⟩)

/-- The static-mode word store: fixed pools, a shared word counter. -/
structure StaticDict where
  words : List (List Nat)
  signatures : List (List Nat)
  deriving DecidableEq, Repr

/-- `dictionary_add` from anagram_chain_core.c (static mode): reject a
NULL word or a full pool, reject `len ≥ POOL_MAX_WORD_LEN - 1`; otherwise
copy the word and its sorted copy into the fixed arrays (again through
`sort_chars`, whose assert halt is the outer `none`). -/
def dictionary_add_static (st : StaticDict) (word : Option (List Nat)) :
    Option (Int × StaticDict) :=
  match word with
  | none => some (-1, st)
  | some w =>
    if POOL_MAX_WORDS ≤ st.words.length then some (-1, st)
    else if POOL_MAX_WORD_LEN - 1 ≤ w.length then some (-1, st)
    else
      match sort_chars w with
      | none => none
      | some sig => some (0, ⟨st.words ++ [w], st.signatures ++ [sig]⟩)

/-- The linear-scan loop of `find_word_index`: first index whose word
compares equal, else `-1`.  `i` is the running index. -/
def find_word_index_aux : List (List Nat) → List Nat → Nat → Int
  | [], _, _ => -1
  | w :: rest, word, i =>
    if w = word then Int.ofNat i else find_word_index_aux rest word (i + 1)

/-- `find_word_index` from anagram_chain_core.c. -/
def find_word_index (dict : Dictionary) (word : List Nat) : Int :=
  find_word_index_aux dict.words word 0

/-- `get_word` from anagram_chain_core.c: the stored word for a live id,
the empty string (here `[]`) for any out-of-range index. -/
def get_word (dict : Dictionary) (idx : Nat) : List Nat :=
  if idx < dict.words.length then dict.words.getD idx [] else []

/-! ## Signature index (hash table) -/

/-- `HashEntry`: one signature together with the ids sharing it. -/
structure HashEntry where
  signature : List Nat
  word_indices : List Nat
  deriving DecidableEq, Repr

/-- The hash table, as its entries in insertion order (see module
comment on why the bucket structure is observationally irrelevant). -/
abbrev HashTable := List HashEntry

/-- `hashtable_insert` from anagram_chain_core.c: merge into the entry
with an equal signature (appending the id) or create a fresh entry. -/
def hashtable_insert : HashTable → List Nat → Nat → HashTable
  | [], sig, idx => [⟨sig, [idx]⟩]
  | e :: rest, sig, idx =>
    if e.signature = sig then
      ⟨e.signature, e.word_indices ++ [idx]⟩ :: rest
    else e :: hashtable_insert rest sig idx

/-- `hashtable_find` from anagram_chain_core.c: the entry whose
signature bytes compare equal, if any. -/
def hashtable_find : HashTable → List Nat → Option HashEntry
  | [], _ => none
  | e :: rest, sig => if e.signature = sig then some e else hashtable_find rest sig

/-- The loop of `build_index`: insert `(signatures[i], i)` for ascending
`i`. -/
def build_index_aux : List (List Nat) → Nat → HashTable → HashTable
  | [], _, ht => ht
  | s :: rest, i, ht => build_index_aux rest (i + 1) (hashtable_insert ht s i)

/-- `build_index` from anagram_chain_core.c. -/
def build_index (dict : Dictionary) : HashTable :=
  build_index_aux dict.signatures 0 []

/-! ## Longest-only accumulator -/

/-- `ChainResults`: the stored chains (each a list of word ids) and the
current best length.  `count` is the list length; `capacity` only drives
reallocation. -/
structure ChainResults where
  chains : List (List Nat)
  max_length : Nat
  deriving DecidableEq, Repr

/-- The fresh accumulator made by `chain_results_create`. -/
def chain_results_create : ChainResults := ⟨[], 0⟩

/-- The second conditional of the leaf-emission block of `dfs_dynamic`:
store a copy of the path when it has the current best length and the
chain cap is not yet reached. -/
def dfs_emit_store (res : ChainResults) (path : List Nat) : ChainResults :=
  if path.length = res.max_length ∧ res.chains.length < MAX_CHAINS then
    ⟨res.chains ++ [path], res.max_length⟩
  else res

/-- The leaf-emission block of `dfs_dynamic`
(anagram_chain_core.c lines 189-229): a strictly longer chain discards
everything stored and raises `max_length`; then a chain of the current
best length is appended while fewer than `MAX_CHAINS` are stored. -/
def dfs_emit (res : ChainResults) (path : List Nat) : ChainResults :=
  dfs_emit_store
    (if res.max_length < path.length then ⟨[], path.length⟩ else res) path

/-! ## Chain enumerator (DFS) -/

/-- The signature stored for id `i` (`dict->signatures[cur]`). -/
def sigOf (dict : Dictionary) (i : Nat) : List Nat :=
  dict.signatures.getD i []

/-- The candidate alphabet `ASCII_MIN .. ASCII_MAX` of the DFS loop. -/
def charRange : List Nat := List.range' ASCII_MIN (ASCII_MAX - ASCII_MIN + 1)

/-- `dfs_dynamic` from anagram_chain_core.c, with the remaining recursion
budget made explicit: `fuel = MAX_CHAIN_DEPTH - depth`, so `fuel = 0` is
exactly the C guard `depth >= MAX_CHAIN_DEPTH` (an immediate return).
`path` is `dfs_path[0..depth-1]` (so `depth = path.length`), `res` the
accumulator.  For each byte `c` in ascending order the candidate
signature is formed, looked up, and every id in the entry is visited with
the found-flag set; a node with no successor emits `path` as a leaf. -/
def dfsF (ht : HashTable) (dict : Dictionary) :
    Nat → Nat → List Nat → ChainResults → ChainResults
  | 0, _, _, res => res
  | fuel + 1, cur, path, res =>
    let sig := sigOf dict cur
    let step := charRange.foldl
      (fun (acc : Bool × ChainResults) c =>
        match hashtable_find ht (insert_sorted sig c) with
        | none => acc
        | some e =>
          e.word_indices.foldl
            (fun (acc2 : Bool × ChainResults) j =>
              (true, dfsF ht dict fuel j (path ++ [j]) acc2.2))
            acc)
      (false, res)
    if step.1 then step.2 else dfs_emit step.2 path

/-- `dfs_dynamic` at depth `path.length`. -/
def dfs_dynamic (ht : HashTable) (dict : Dictionary) (cur : Nat)
    (path : List Nat) (res : ChainResults) : ChainResults :=
  dfsF ht dict (MAX_CHAIN_DEPTH - path.length) cur path res

/-- `find_longest_chains` from anagram_chain_core.c (dynamic mode):
resolve the start word; on `idx < 0` return NULL (modelled `none`);
otherwise run the DFS from `path = [idx]` at depth 1 on a fresh
accumulator. -/
def find_longest_chains (ht : HashTable) (dict : Dictionary)
    (start : List Nat) : Option ChainResults :=
  if find_word_index dict start < 0 then none
  else some (dfs_dynamic ht dict (find_word_index dict start).toNat
    [(find_word_index dict start).toNat] chain_results_create)

/-! ## Claim C10: totality of `get_word` -/

/-- C10: `get_word` is total — an index at or past the store's count
yields the empty string, an in-range index yields the stored word. -/
theorem C10_get_word_total (dict : Dictionary) (idx : Nat) :
    (dict.words.length ≤ idx → get_word dict idx = []) ∧
    (idx < dict.words.length → get_word dict idx = dict.words.getD idx []) := by
  constructor
  · intro h
    simp [get_word, Nat.not_lt.mpr h]
  · intro h
    simp [get_word, h]

theorem C10_get_word_total_witness :
    get_word ⟨[[97], [98, 99]], [[97], [98, 99]]⟩ 5 = [] ∧
    get_word ⟨[[97], [98, 99]], [[97], [98, 99]]⟩ 1 = [98, 99] := by
  refine ⟨(C10_get_word_total ⟨[[97], [98, 99]], [[97], [98, 99]]⟩ 5).1 (by decide), ?_⟩
  have h := (C10_get_word_total ⟨[[97], [98, 99]], [[97], [98, 99]]⟩ 1).2 (by decide)
  simpa using h

/-! ## Claim C8: the MAX_WORD_LENGTH boundary -/

/-- C8 counterexample: a word of length exactly `MAX_WORD_LENGTH` (257 in
the host configuration) is rejected by `is_valid_word`, although the
claim says it is accepted. -/
theorem C8_max_word_length_cex :
    is_valid_word (List.replicate MAX_WORD_LENGTH 97) = false := by decide

/-- C8 amended: `is_valid_word` accepts exactly the non-empty words over
`[33,126]` of length `< 256`; hence length 255 is the last accepted
length and a word of length `MAX_WORD_LENGTH = 257` is rejected. -/
theorem C8_valid_word_boundary (w : List Nat) :
    (is_valid_word w = true ↔
      w ≠ [] ∧ (∀ b ∈ w, 33 ≤ b ∧ b ≤ 126) ∧ w.length < 256) ∧
    is_valid_word (List.replicate 255 97) = true ∧
    is_valid_word (List.replicate 256 97) = false := by
  refine ⟨?_, by decide, by decide⟩
  constructor
  · intro h
    unfold is_valid_word at h
    by_cases he : w.isEmpty = true
    · rw [if_pos he] at h
      exact absurd h (by simp)
    · rw [if_neg he] at h
      by_cases ha : (w.all fun b => 33 ≤ b && b ≤ 126) = true
      · rw [if_pos ha] at h
        refine ⟨by simpa using he, ?_, by simpa using h⟩
        intro b hb
        have hb' := List.all_eq_true.mp ha b hb
        simpa using hb'
      · rw [if_neg ha] at h
        exact absurd h (by simp)
  · rintro ⟨hne, hall, hlen⟩
    unfold is_valid_word
    rw [if_neg (by simpa using hne)]
    rw [if_pos (List.all_eq_true.mpr fun b hb => by simpa using hall b hb)]
    simpa using hlen

/-! ## The two exits of `sort_chars` -/

theorem sort_chars_some (w : List Nat) (hw : ∀ b ∈ w, b < CHAR_COUNT_SIZE) :
    sort_chars w = some (sort_chars_loops w) := by
  unfold sort_chars
  rw [if_pos (List.all_eq_true.mpr fun b hb => by simpa using hw b hb)]

theorem sort_chars_none (w : List Nat) (hw : ∃ b ∈ w, CHAR_COUNT_SIZE ≤ b) :
    sort_chars w = none := by
  unfold sort_chars
  rw [if_neg]
  intro hall
  rcases hw with ⟨b, hb, hge⟩
  have := List.all_eq_true.mp hall b hb
  simp at this
  omega

/-! ## Claim C9: the return value of `dictionary_add` -/

/-- C9 counterexample: the second successful `dictionary_add` places the
word at id 1 but returns `0`, not the assigned id `1`. -/
theorem C9_add_returns_zero_cex :
    dictionary_add dictionary_create (some [97, 98]) =
      some (0, ⟨[[97, 98]], [[97, 98]]⟩) ∧
    dictionary_add (⟨[[97, 98]], [[97, 98]]⟩ : Dictionary) (some [99, 100]) =
      some (0, ⟨[[97, 98], [99, 100]], [[97, 98], [99, 100]]⟩) := by
  exact ⟨by decide, by decide⟩

/-- C9 amended: on success `dictionary_add` returns `0` (`-1` on
failure), not the assigned id; success for the human implementation
requires every byte `< 128` (a byte `≥ 128` halts the process through
the `sort_chars` assert before any return).  The id is assigned
implicitly: each successful add appends at index `count`, so the first
word gets id 0, each later word the previous id plus one, and duplicate
words occupy distinct fresh ids. -/
theorem C9_add_assigns_dense_ids (dict : Dictionary) (w : List Nat)
    (hw : ∀ b ∈ w, b < CHAR_COUNT_SIZE) :
    dictionary_add dict (some w) = some (0,
      ⟨dict.words ++ [w], dict.signatures ++ [sort_chars_loops w]⟩) ∧
    (dict.words ++ [w]).length = dict.words.length + 1 ∧
    (dict.words ++ [w]).getD dict.words.length [] = w ∧
    (∀ i, i < dict.words.length →
      (dict.words ++ [w]).getD i [] = dict.words.getD i []) := by
  refine ⟨?_, by simp, ?_, ?_⟩
  · simp only [dictionary_add]
    rw [sort_chars_some w hw]
  · simp [List.getD_append_right, List.getD]
  · intro i hi
    simp only [List.getD]
    rw [List.get?_eq_getElem?, List.get?_eq_getElem?, List.getElem?_append_left hi]

theorem C9_add_assigns_dense_ids_witness :
    (∀ b ∈ [99, 100], b < CHAR_COUNT_SIZE) ∧
    (dictionary_add (⟨[[97, 98]], [[97, 98]]⟩ : Dictionary) (some [99, 100]) =
        some (0, ⟨[[97, 98], [99, 100]], [[97, 98], [99, 100]]⟩) ∧
      ([[97, 98], [99, 100]] : List (List Nat)).length = 1 + 1 ∧
      ([[97, 98], [99, 100]] : List (List Nat)).getD 1 [] = [99, 100] ∧
      (∀ i, i < ([[97, 98]] : List (List Nat)).length →
        ([[97, 98], [99, 100]] : List (List Nat)).getD i [] =
          ([[97, 98]] : List (List Nat)).getD i [])) :=
  ⟨by decide,
    C9_add_assigns_dense_ids ⟨[[97, 98]], [[97, 98]]⟩ [99, 100] (by decide)⟩

/-! ## Claim C3: `dictionary_add` does not validate -/

/-- C3 counterexample: the empty word — invalid per the claim — is
accepted by `dictionary_add` (return 0) and changes the store. -/
theorem C3_add_no_validation_cex :
    dictionary_add dictionary_create (some []) = some (0, ⟨[[]], [[]]⟩) := by
  decide

/-- C3 amended: `dictionary_add` returns a failure indication only for a
NULL word (`-1`, store unchanged).  A non-NULL word whose bytes are all
`< 128` — including the empty word and words with bytes in
`[1,32] ∪ {127}`, which the claim calls invalid — is appended with
success status `0`; a word with a byte `≥ 128` does not return at all:
the process halts in the `sort_chars` assert.  Word validation
(`is_valid_word`) is performed by the `load_dictionary` caller, which
skips invalid tokens before calling `dictionary_add`. -/
theorem C3_add_null_only (dict : Dictionary) (w : List Nat) :
    dictionary_add dict none = some (-1, dict) ∧
    ((∀ b ∈ w, b < CHAR_COUNT_SIZE) →
      dictionary_add dict (some w) = some (0,
        ⟨dict.words ++ [w], dict.signatures ++ [sort_chars_loops w]⟩)) ∧
    ((∃ b ∈ w, CHAR_COUNT_SIZE ≤ b) →
      dictionary_add dict (some w) = none) := by
  refine ⟨rfl, ?_, ?_⟩
  · intro hw
    simp only [dictionary_add]
    rw [sort_chars_some w hw]
  · intro hw
    simp only [dictionary_add]
    rw [sort_chars_none w hw]

theorem C3_add_null_only_witness :
    dictionary_add (⟨[], []⟩ : Dictionary) none = some (-1, ⟨[], []⟩) ∧
    dictionary_add (⟨[], []⟩ : Dictionary) (some [20]) =
      some (0, ⟨[[20]], [[20]]⟩) ∧
    dictionary_add (⟨[], []⟩ : Dictionary) (some [200]) = none := by
  refine ⟨(C3_add_null_only ⟨[], []⟩ []).1, ?_,
    (C3_add_null_only ⟨[], []⟩ [200]).2.2 ⟨200, by decide, by decide⟩⟩
  have h := (C3_add_null_only ⟨[], []⟩ [20]).2.1 (by decide)
  simpa using h

/-! ## Claim C1: absent start word -/

/-- C1 counterexample: with a store holding only "abc" and start word
"xyz", `find_longest_chains` returns NULL (`none`) — an absent result,
not a result-set containing zero chains. -/
theorem C1_absent_start_cex :
    find_longest_chains (build_index ⟨[[97, 98, 99]], [[97, 98, 99]]⟩)
      ⟨[[97, 98, 99]], [[97, 98, 99]]⟩ [120, 121, 122] = none := by
  decide

/-- C1 amended: whenever the start word is absent from the store
(`find_word_index` yields `-1`), `find_longest_chains` returns NULL
(modelled `none`) — an absent result, which the printing caller
(`print_results`) treats exactly like an empty result-set
("No chains found."). -/
theorem C1_absent_start_returns_null (ht : HashTable) (dict : Dictionary)
    (start : List Nat) (h : find_word_index dict start = -1) :
    find_longest_chains ht dict start = none := by
  simp [find_longest_chains, h]

theorem C1_absent_start_returns_null_witness :
    find_word_index ⟨[[97, 98, 99]], [[97, 98, 99]]⟩ [120] = -1 ∧
    find_longest_chains [] ⟨[[97, 98, 99]], [[97, 98, 99]]⟩ [120] = none := by
  refine ⟨by decide, C1_absent_start_returns_null _ _ _ (by decide)⟩

/-! ## Claim C7: derivation round-trip -/

theorem insert_sorted_length (s : List Nat) (c : Nat) :
    (insert_sorted s c).length = s.length + 1 := by
  induction s with
  | nil => rfl
  | cons x xs ih =>
    unfold insert_sorted
    by_cases h : c < x
    · simp [h]
    · simp [h, ih]

theorem derivedScan_self (l : List Nat) (skip : Bool) :
    derivedScan l l skip = true := by
  induction l with
  | nil => rfl
  | cons x xs ih => simpa [derivedScan] using ih

theorem derivedScan_insert (s : List Nat) (c : Nat) :
    derivedScan s (insert_sorted s c) false = true := by
  induction s with
  | nil => rfl
  | cons x xs ih =>
    unfold insert_sorted
    by_cases h : c < x
    · rw [if_pos h]
      have hne : x ≠ c := by omega
      simp [derivedScan, hne, derivedScan_self]
    · rw [if_neg h]
      simpa [derivedScan] using ih

/-- C7: for every signature `s` and byte `c` in `[33,126]`,
`is_derived_signature s (insert_sorted s c)` holds and the insertion
grows the length by exactly one. -/
theorem C7_derivation_round_trip (s : List Nat) (c : Nat)
    (h1 : ASCII_MIN ≤ c) (h2 : c ≤ ASCII_MAX) :
    is_derived_signature s (insert_sorted s c) = true ∧
    (insert_sorted s c).length = s.length + 1 := by
  refine ⟨?_, insert_sorted_length s c⟩
  unfold is_derived_signature
  rw [if_pos (insert_sorted_length s c), derivedScan_insert]

theorem C7_derivation_round_trip_witness :
    (ASCII_MIN ≤ 99 ∧ 99 ≤ ASCII_MAX) ∧
    (is_derived_signature [97, 98] (insert_sorted [97, 98] 99) = true ∧
      (insert_sorted [97, 98] 99).length = [97, 98].length + 1) :=
  ⟨by decide, C7_derivation_round_trip [97, 98] 99 (by decide) (by decide)⟩

/-! ## Claim C6: anagram equivalence of `compute_signature` -/

theorem count_flatMap_replicate (L : List Nat) (hL : L.Nodup) (f : Nat → Nat)
    (c : Nat) :
    (L.flatMap fun x => List.replicate (f x) x).count c =
      if c ∈ L then f c else 0 := by
  induction L with
  | nil => simp
  | cons x rest ih =>
    have hx : x ∉ rest := (List.nodup_cons.mp hL).1
    have hrest : rest.Nodup := (List.nodup_cons.mp hL).2
    simp only [List.flatMap_cons, List.count_append, ih hrest]
    by_cases hcx : c = x
    · subst hcx
      simp [List.count_replicate, hx]
    · simp [List.count_replicate, hcx, List.mem_cons]
      intro hxc
      exact absurd hxc.symm hcx

theorem count_sort_chars (s : List Nat) (hs : ∀ b ∈ s, b < CHAR_COUNT_SIZE)
    (c : Nat) : (sort_chars_loops s).count c = s.count c := by
  unfold sort_chars_loops
  rw [count_flatMap_replicate _ (List.nodup_range _) _ c]
  by_cases h : c ∈ List.range CHAR_COUNT_SIZE
  · simp [h]
  · rw [if_neg h, List.mem_range] at *
    symm
    rw [List.count_eq_zero]
    intro hc
    exact h (hs c hc)

/-- The counting sort permutes its input (when every byte fits the
128-entry tally, as the assert has already checked). -/
theorem sort_chars_loops_perm (s : List Nat)
    (hs : ∀ b ∈ s, b < CHAR_COUNT_SIZE) : (sort_chars_loops s).Perm s := by
  rw [List.perm_iff_count]
  intro a
  exact count_sort_chars s hs a

theorem pairwise_le_replicate (m k : Nat) :
    List.Pairwise (· ≤ ·) (List.replicate m (k : Nat)) := by
  induction m with
  | zero => simp
  | succ n ih =>
    rw [List.replicate_succ]
    refine List.Pairwise.cons ?_ ih
    intro b hb
    rw [List.eq_of_mem_replicate hb]

theorem sorted_range'_flatMap_replicate (f : Nat → Nat) :
    ∀ n k, List.Sorted (· ≤ ·)
      ((List.range' k n).flatMap fun c => List.replicate (f c) c) := by
  intro n
  induction n with
  | zero => intro k; simp [List.Sorted]
  | succ m ih =>
    intro k
    rw [List.range'_succ, List.flatMap_cons]
    rw [List.Sorted, List.pairwise_append]
    refine ⟨pairwise_le_replicate _ _, ih (k + 1), ?_⟩
    intro a ha b hb
    rw [List.eq_of_mem_replicate ha]
    rcases List.mem_flatMap.mp hb with ⟨c, hc, hbc⟩
    rw [List.eq_of_mem_replicate hbc]
    have := (List.mem_range'_1.mp hc).1
    omega

theorem sort_chars_loops_sorted (s : List Nat) :
    List.Sorted (· ≤ ·) (sort_chars_loops s) := by
  unfold sort_chars_loops
  rw [List.range_eq_range']
  exact sorted_range'_flatMap_replicate _ CHAR_COUNT_SIZE 0

theorem flatMap_congr_fn {L : List Nat} {f g : Nat → List Nat}
    (h : ∀ x ∈ L, f x = g x) : L.flatMap f = L.flatMap g := by
  induction L with
  | nil => rfl
  | cons x rest ih =>
    rw [List.flatMap_cons, List.flatMap_cons, h x (by simp),
      ih fun y hy => h y (by simp [hy])]

theorem sort_chars_loops_eq_of_perm {w1 w2 : List Nat} (h : w1.Perm w2) :
    sort_chars_loops w1 = sort_chars_loops w2 := by
  unfold sort_chars_loops
  exact flatMap_congr_fn fun c _ => by rw [h.count_eq]

/-- C6: two words (non-empty, over `[33,126]`, fitting the signature
buffer) get equal signatures iff they are permutations of each other;
moreover the computed signature is the byte-sorted permutation of the
word. -/
theorem C6_anagram_equivalence (w1 w2 : List Nat)
    (hn1 : w1 ≠ []) (hn2 : w2 ≠ [])
    (hb1 : ∀ b ∈ w1, ASCII_MIN ≤ b ∧ b ≤ ASCII_MAX)
    (hb2 : ∀ b ∈ w2, ASCII_MIN ≤ b ∧ b ≤ ASCII_MAX)
    (hl1 : w1.length < 512) (hl2 : w2.length < 512) :
    (compute_signature w1 = compute_signature w2 ↔ w1.Perm w2) ∧
    ∃ s, compute_signature w1 = some s ∧ s.Perm w1 ∧
      List.Sorted (· ≤ ·) s := by
  have h128 : ∀ w : List Nat, (∀ b ∈ w, ASCII_MIN ≤ b ∧ b ≤ ASCII_MAX) →
      ∀ b ∈ w, b < CHAR_COUNT_SIZE := by
    intro w hw b hb
    have := (hw b hb).2
    unfold ASCII_MAX at this
    unfold CHAR_COUNT_SIZE
    omega
  have e1 : compute_signature w1 = some (sort_chars_loops w1) := by
    unfold compute_signature
    rw [if_neg (by omega)]
    exact sort_chars_some w1 (h128 w1 hb1)
  have e2 : compute_signature w2 = some (sort_chars_loops w2) := by
    unfold compute_signature
    rw [if_neg (by omega)]
    exact sort_chars_some w2 (h128 w2 hb2)
  refine ⟨⟨?_, ?_⟩, sort_chars_loops w1, e1,
    sort_chars_loops_perm w1 (h128 w1 hb1), sort_chars_loops_sorted w1⟩
  · intro h
    rw [e1, e2, Option.some_inj] at h
    exact ((sort_chars_loops_perm w1 (h128 w1 hb1)).symm.trans
      (h ▸ sort_chars_loops_perm w2 (h128 w2 hb2)))
  · intro h
    rw [e1, e2, Option.some_inj]
    exact sort_chars_loops_eq_of_perm h

theorem C6_anagram_equivalence_witness :
    ([97, 98, 99] ≠ ([] : List Nat) ∧ [99, 97, 98] ≠ ([] : List Nat) ∧
      (∀ b ∈ [97, 98, 99], ASCII_MIN ≤ b ∧ b ≤ ASCII_MAX) ∧
      (∀ b ∈ [99, 97, 98], ASCII_MIN ≤ b ∧ b ≤ ASCII_MAX) ∧
      [97, 98, 99].length < 512 ∧ [99, 97, 98].length < 512) ∧
    ((compute_signature [97, 98, 99] = compute_signature [99, 97, 98] ↔
        List.Perm [97, 98, 99] [99, 97, 98]) ∧
      ∃ s, compute_signature [97, 98, 99] = some s ∧
        s.Perm [97, 98, 99] ∧ List.Sorted (· ≤ ·) s) :=
  ⟨⟨by decide, by decide, by decide, by decide, by decide, by decide⟩,
    C6_anagram_equivalence [97, 98, 99] [99, 97, 98] (by decide) (by decide)
      (by decide) (by decide) (by decide) (by decide)⟩

/-! ## DFS machinery

`dfsChar` and `dfsVisit` name the two loop bodies of `dfs_dynamic` (the
per-character candidate probe, and the per-id visit that sets the found
flag and recurses); `dfsF_succ` re-expresses one unfolding of `dfsF`
through them. -/

/-- The body of the inner id loop of `dfs_dynamic`. -/
def dfsVisit (ht : HashTable) (dict : Dictionary) (fuel : Nat)
    (path : List Nat) (acc2 : Bool × ChainResults) (j : Nat) :
    Bool × ChainResults :=
  (true, dfsF ht dict fuel j (path ++ [j]) acc2.2)

/-- The body of the character loop of `dfs_dynamic`. -/
def dfsChar (ht : HashTable) (dict : Dictionary) (fuel : Nat)
    (path : List Nat) (sig : List Nat) (acc : Bool × ChainResults)
    (c : Nat) : Bool × ChainResults :=
  match hashtable_find ht (insert_sorted sig c) with
  | none => acc
  | some e => e.word_indices.foldl (dfsVisit ht dict fuel path) acc

theorem dfsF_succ (ht : HashTable) (dict : Dictionary) (fuel cur : Nat)
    (path : List Nat) (res : ChainResults) :
    dfsF ht dict (fuel + 1) cur path res =
      (let step := charRange.foldl
        (dfsChar ht dict fuel path (sigOf dict cur)) (false, res)
       if step.1 then step.2 else dfs_emit step.2 path) := rfl

/-- The successor ids the DFS can reach from signature `s`: for each
candidate byte, the id list of the entry found (if any). -/
def succsOf (ht : HashTable) (s : List Nat) : List Nat :=
  charRange.flatMap fun c =>
    match hashtable_find ht (insert_sorted s c) with
    | some e => e.word_indices
    | none => []

/-- One engine step: `b` is reachable from `a` through the candidate
probe. -/
def StepRel (ht : HashTable) (dict : Dictionary) (a b : Nat) : Prop :=
  b ∈ succsOf ht (sigOf dict a)

/-- A chain the engine can traverse, starting at id `i`. -/
def IsChainFrom (ht : HashTable) (dict : Dictionary) (i : Nat)
    (l : List Nat) : Prop :=
  l.head? = some i ∧ List.Chain' (StepRel ht dict) l

/-- The last id of a chain. -/
def lastOf (l : List Nat) : Nat := l.getLast?.getD 0

/-! ### Generic fold invariants -/

theorem foldl_pres {α β : Type} (P : β → Prop) (f : β → α → β) :
    ∀ (l : List α), (∀ b a, a ∈ l → P b → P (f b a)) →
      ∀ init, P init → P (l.foldl f init) := by
  intro l
  induction l with
  | nil => intro _ init h0; exact h0
  | cons a t ih =>
    intro h init h0
    rw [List.foldl_cons]
    exact ih (fun b x hx hb => h b x (by simp [hx]) hb) (f init a)
      (h init a (by simp) h0)

theorem foldl_reach {α β : Type} (P : β → Prop) (f : β → α → β)
    (l : List α) (x : α) (hx : x ∈ l)
    (hstep : ∀ b a, a ∈ l → P b → P (f b a))
    (hhit : ∀ b, P (f b x)) :
    ∀ init, P (l.foldl f init) := by
  rcases List.append_of_mem hx with ⟨s, t, rfl⟩
  intro init
  rw [List.foldl_append, List.foldl_cons]
  exact foldl_pres P f t
    (fun b a ha hb => hstep b a (by simp [ha]) hb) _
    (hhit _)

/-! ### Accumulator (emit) lemmas -/

theorem dfs_emit_store_max (res : ChainResults) (path : List Nat) :
    (dfs_emit_store res path).max_length = res.max_length := by
  unfold dfs_emit_store
  by_cases h : path.length = res.max_length ∧ res.chains.length < MAX_CHAINS
  · rw [if_pos h]
  · rw [if_neg h]

theorem dfs_emit_max (res : ChainResults) (path : List Nat) :
    (dfs_emit res path).max_length = max res.max_length path.length := by
  unfold dfs_emit
  rw [dfs_emit_store_max]
  by_cases h : res.max_length < path.length
  · rw [if_pos h]
    simp only []
    omega
  · rw [if_neg h]
    omega

theorem dfs_emit_short (res : ChainResults) (path : List Nat)
    (h : path.length < res.max_length) : dfs_emit res path = res := by
  have h1 : ¬ res.max_length < path.length := by omega
  unfold dfs_emit
  rw [if_neg h1]
  unfold dfs_emit_store
  rw [if_neg (by
    rintro ⟨h2, _⟩
    omega)]

theorem dfs_emit_long (res : ChainResults) (path : List Nat)
    (h : res.max_length < path.length) :
    dfs_emit res path = ⟨[path], path.length⟩ := by
  unfold dfs_emit dfs_emit_store
  rw [if_pos h]
  rw [if_pos ⟨rfl, by unfold MAX_CHAINS; simp⟩]
  simp

theorem dfs_emit_len_inv (res : ChainResults) (path : List Nat)
    (h : ∀ c ∈ res.chains, c.length = res.max_length) :
    ∀ c ∈ (dfs_emit res path).chains,
      c.length = (dfs_emit res path).max_length := by
  unfold dfs_emit dfs_emit_store
  by_cases h1 : res.max_length < path.length
  · rw [if_pos h1, if_pos ⟨rfl, by unfold MAX_CHAINS; simp⟩]
    simp
  · rw [if_neg h1]
    by_cases h2 : path.length = res.max_length ∧ res.chains.length < MAX_CHAINS
    · rw [if_pos h2]
      intro c hc
      rcases List.mem_append.mp hc with hc1 | hc2
      · exact h c hc1
      · simp at hc2
        subst hc2
        exact h2.1
    · rw [if_neg h2]
      exact h

theorem dfs_emit_all (Q : List Nat → Prop) (res : ChainResults)
    (path : List Nat) (hres : ∀ c ∈ res.chains, Q c) (hp : Q path) :
    ∀ c ∈ (dfs_emit res path).chains, Q c := by
  unfold dfs_emit dfs_emit_store
  by_cases h1 : res.max_length < path.length
  · rw [if_pos h1, if_pos ⟨rfl, by unfold MAX_CHAINS; simp⟩]
    intro c hc
    simp at hc
    subst hc
    exact hp
  · rw [if_neg h1]
    by_cases h2 : path.length = res.max_length ∧ res.chains.length < MAX_CHAINS
    · rw [if_pos h2]
      intro c hc
      rcases List.mem_append.mp hc with hc1 | hc2
      · exact hres c hc1
      · simp at hc2
        subst hc2
        exact hp
    · rw [if_neg h2]
      exact hres

/-! ### Claim C2: the depth cap -/

/-- C2 counterexample: invoking the DFS at depth `MAX_CHAIN_DEPTH` (the
attempt to recurse past the limit) returns the accumulator unchanged —
the current chain, here the 256-long path prefix, is NOT emitted as a
leaf; the empty accumulator stays empty. -/
theorem C2_depth_cap_cex :
    dfs_dynamic (build_index ⟨[[97]], [[97]]⟩) ⟨[[97]], [[97]]⟩ 0
      (List.replicate MAX_CHAIN_DEPTH 0) ⟨[], 0⟩ = ⟨[], 0⟩ := by
  rfl

/-- C2 amended: attempting to recurse past `MAX_CHAIN_DEPTH` is a silent
no-op in the strict sense — the call returns the accumulator unchanged
and nothing is emitted; a chain truncated at the cap is silently
dropped (its parent saw a successor, so it does not emit either). -/
theorem C2_depth_cap_silent (ht : HashTable) (dict : Dictionary)
    (cur : Nat) (path : List Nat) (res : ChainResults)
    (h : MAX_CHAIN_DEPTH ≤ path.length) :
    dfs_dynamic ht dict cur path res = res := by
  unfold dfs_dynamic
  rw [Nat.sub_eq_zero_of_le h]
  rfl

theorem C2_depth_cap_silent_witness :
    MAX_CHAIN_DEPTH ≤ (List.replicate 300 (0 : Nat)).length ∧
    dfs_dynamic [] ⟨[], []⟩ 0 (List.replicate 300 0) ⟨[[0]], 1⟩ =
      ⟨[[0]], 1⟩ :=
  ⟨by decide, C2_depth_cap_silent [] ⟨[], []⟩ 0 (List.replicate 300 0)
    ⟨[[0]], 1⟩ (by decide)⟩

/-! ### Monotonicity of the stored best length -/

theorem dfsF_max_mono (ht : HashTable) (dict : Dictionary) :
    ∀ fuel cur path res,
      res.max_length ≤ (dfsF ht dict fuel cur path res).max_length := by
  intro fuel
  induction fuel with
  | zero => intro cur path res; exact le_refl _
  | succ fuel ih =>
    intro cur path res
    rw [dfsF_succ]
    have hP : ∀ q : Bool × ChainResults,
        q = charRange.foldl
          (dfsChar ht dict fuel path (sigOf dict cur)) (false, res) →
        res.max_length ≤ q.2.max_length := by
      intro q hq
      subst hq
      refine foldl_pres (fun acc => res.max_length ≤ acc.2.max_length) _
        charRange ?_ (false, res) (le_refl _)
      intro b c _ hb
      unfold dfsChar
      cases hfind : hashtable_find ht (insert_sorted (sigOf dict cur) c) with
      | none => exact hb
      | some e =>
        refine foldl_pres (fun acc => res.max_length ≤ acc.2.max_length) _
          e.word_indices ?_ b hb
        intro b2 j _ hb2
        unfold dfsVisit
        exact le_trans hb2 (ih j (path ++ [j]) b2.2)
    simp only []
    by_cases h1 : (charRange.foldl
        (dfsChar ht dict fuel path (sigOf dict cur)) (false, res)).1 = true
    · rw [if_pos h1]
      exact hP _ rfl
    · rw [if_neg h1]
      refine le_trans (hP _ rfl) ?_
      rw [dfs_emit_max]
      exact le_max_left _ _

theorem dfsVisit_snd (ht : HashTable) (dict : Dictionary) (fuel : Nat)
    (path : List Nat) (acc2 : Bool × ChainResults) (j : Nat) :
    (dfsVisit ht dict fuel path acc2 j).2 =
      dfsF ht dict fuel j (path ++ [j]) acc2.2 := rfl

theorem dfsVisit_max_mono (ht : HashTable) (dict : Dictionary) (fuel : Nat)
    (path : List Nat) (acc2 : Bool × ChainResults) (j : Nat) :
    acc2.2.max_length ≤ (dfsVisit ht dict fuel path acc2 j).2.max_length := by
  rw [dfsVisit_snd]
  exact dfsF_max_mono ht dict fuel j (path ++ [j]) acc2.2

theorem dfsChar_max_mono (ht : HashTable) (dict : Dictionary) (fuel : Nat)
    (path sig : List Nat) (acc : Bool × ChainResults) (c : Nat) :
    acc.2.max_length ≤ (dfsChar ht dict fuel path sig acc c).2.max_length := by
  unfold dfsChar
  cases hfind : hashtable_find ht (insert_sorted sig c) with
  | none => exact le_refl _
  | some e =>
    refine foldl_pres (fun b => acc.2.max_length ≤ b.2.max_length) _
      e.word_indices ?_ acc (le_refl _)
    intro b j _ hb
    exact le_trans hb (dfsVisit_max_mono ht dict fuel path b j)

/-- Lower bound: a leaf chain of length within the remaining budget
forces the final best length up to the corresponding leaf depth. -/
theorem dfsF_max_lb (ht : HashTable) (dict : Dictionary) :
    ∀ (fuel : Nat) (l : List Nat) (cur : Nat) (path : List Nat)
      (res : ChainResults),
      IsChainFrom ht dict cur l →
      succsOf ht (sigOf dict (lastOf l)) = [] →
      l.length ≤ fuel → path ≠ [] →
      path.length - 1 + l.length ≤
        (dfsF ht dict fuel cur path res).max_length := by
  intro fuel
  induction fuel with
  | zero =>
    intro l cur path res hchain _ hlen _
    rcases l with _ | ⟨a, rest⟩
    · exact absurd hchain.1 (by simp)
    · simp at hlen
  | succ fuel ih =>
    intro l cur path res hchain hleaf hlen hpne
    have hp1 : 1 ≤ path.length := List.length_pos.mpr hpne
    rcases l with _ | ⟨a, rest⟩
    · exact absurd hchain.1 (by simp)
    have ha : cur = a := (by simpa using hchain.1 : a = cur).symm
    subst ha
    rcases rest with _ | ⟨j, rest'⟩
    · -- single-node leaf chain: no candidate matches, the node emits
      have hleaf' : succsOf ht (sigOf dict cur) = [] := by
        simpa [lastOf] using hleaf
      rw [dfsF_succ]
      simp only []
      have hfold : charRange.foldl
          (dfsChar ht dict fuel path (sigOf dict cur)) (false, res) =
          (false, res) := by
        refine foldl_pres (fun b => b = (false, res)) _ charRange ?_
          (false, res) rfl
        intro b c hc hb
        subst hb
        unfold dfsChar
        cases hfind : hashtable_find ht (insert_sorted (sigOf dict cur) c) with
        | none => rfl
        | some e =>
          have he : e.word_indices = [] := by
            cases hwi : e.word_indices with
            | nil => rfl
            | cons j0 js =>
              have hmem : j0 ∈ succsOf ht (sigOf dict cur) := by
                unfold succsOf
                refine List.mem_flatMap.mpr ⟨c, hc, ?_⟩
                rw [hfind]
                show j0 ∈ e.word_indices
                rw [hwi]
                simp
              rw [hleaf'] at hmem
              simp at hmem
          show e.word_indices.foldl (dfsVisit ht dict fuel path)
            (false, res) = (false, res)
          rw [he, List.foldl_nil]
      rw [hfold]
      simp only [Bool.false_eq_true, if_false]
      rw [dfs_emit_max]
      simp only [List.length_cons, List.length_nil]
      omega
    · -- the chain steps to j: the fold runs the recursion at (c, j)
      have hch := hchain.2
      rw [List.chain'_cons] at hch
      have hstepj : StepRel ht dict cur j := hch.1
      have hchain' : IsChainFrom ht dict j (j :: rest') := ⟨rfl, hch.2⟩
      have hleaf2 : succsOf ht (sigOf dict (lastOf (j :: rest'))) = [] := by
        have hl : lastOf (cur :: j :: rest') = lastOf (j :: rest') := by
          unfold lastOf
          rw [List.getLast?_cons_cons]
        rwa [hl] at hleaf
      have hlen' : (j :: rest').length ≤ fuel := by
        simp only [List.length_cons] at hlen ⊢
        omega
      unfold StepRel succsOf at hstepj
      rcases List.mem_flatMap.mp hstepj with ⟨c, hc, hjc⟩
      rw [dfsF_succ]
      simp only []
      cases hfind : hashtable_find ht (insert_sorted (sigOf dict cur) c) with
      | none => rw [hfind] at hjc; simp at hjc
      | some e =>
        rw [hfind] at hjc
        simp only [] at hjc
        have hfold : path.length - 1 + (cur :: j :: rest').length ≤
            (charRange.foldl
              (dfsChar ht dict fuel path (sigOf dict cur))
              (false, res)).2.max_length := by
          refine foldl_reach
            (fun b => path.length - 1 + (cur :: j :: rest').length ≤
              b.2.max_length) _ charRange c hc ?_ ?_ (false, res)
          · intro b x _ hb
            exact le_trans hb (dfsChar_max_mono ht dict fuel path _ b x)
          · intro b
            unfold dfsChar
            rw [hfind]
            refine foldl_reach
              (fun b2 => path.length - 1 + (cur :: j :: rest').length ≤
                b2.2.max_length) _ e.word_indices j hjc ?_ ?_ b
            · intro b2 x _ hb2
              exact le_trans hb2 (dfsVisit_max_mono ht dict fuel path b2 x)
            · intro b2
              have hrec := ih (j :: rest') j (path ++ [j]) b2.2 hchain'
                hleaf2 hlen' (by simp)
              rw [dfsVisit_snd]
              simp only [List.length_append, List.length_cons] at hrec ⊢
              omega
        by_cases hfl : (charRange.foldl
            (dfsChar ht dict fuel path (sigOf dict cur)) (false, res)).1 = true
        · rw [if_pos hfl]
          exact hfold
        · rw [if_neg hfl]
          refine le_trans hfold ?_
          rw [dfs_emit_max]
          exact le_max_left _ _

/-- Attainment: the final best length is either untouched or realized by
an engine chain from the current node. -/
theorem dfsF_max_attained (ht : HashTable) (dict : Dictionary) :
    ∀ (fuel cur : Nat) (path : List Nat) (res : ChainResults), path ≠ [] →
      (dfsF ht dict fuel cur path res).max_length = res.max_length ∨
      ∃ l, IsChainFrom ht dict cur l ∧
        (dfsF ht dict fuel cur path res).max_length =
          path.length - 1 + l.length := by
  intro fuel
  induction fuel with
  | zero => intro cur path res _; exact Or.inl rfl
  | succ fuel ih =>
    intro cur path res hpne
    have hp1 : 1 ≤ path.length := List.length_pos.mpr hpne
    rw [dfsF_succ]
    simp only []
    have hP : ∀ q : Bool × ChainResults,
        q = charRange.foldl
          (dfsChar ht dict fuel path (sigOf dict cur)) (false, res) →
        q.2.max_length = res.max_length ∨
        ∃ l, IsChainFrom ht dict cur l ∧
          q.2.max_length = path.length - 1 + l.length := by
      intro q hq
      subst hq
      refine foldl_pres (fun b => b.2.max_length = res.max_length ∨
        ∃ l, IsChainFrom ht dict cur l ∧
          b.2.max_length = path.length - 1 + l.length) _ charRange ?_
        (false, res) (Or.inl rfl)
      intro b c hc hb
      unfold dfsChar
      cases hfind : hashtable_find ht (insert_sorted (sigOf dict cur) c) with
      | none => exact hb
      | some e =>
        refine foldl_pres (fun b2 => b2.2.max_length = res.max_length ∨
          ∃ l, IsChainFrom ht dict cur l ∧
            b2.2.max_length = path.length - 1 + l.length) _
          e.word_indices ?_ b hb
        intro b2 j hj hb2
        have hsucc : j ∈ succsOf ht (sigOf dict cur) := by
          unfold succsOf
          refine List.mem_flatMap.mpr ⟨c, hc, ?_⟩
          rw [hfind]
          exact hj
        have hrec := ih j (path ++ [j]) b2.2 (by simp)
        show (dfsVisit ht dict fuel path b2 j).2.max_length = _ ∨ _
        rw [dfsVisit_snd]
        rcases hrec with h1 | ⟨l', hl', h2⟩
        · rw [h1]
          exact hb2
        · right
          rcases hl' with ⟨hh', hc'⟩
          rcases l' with _ | ⟨j0, t⟩
          · simp at hh'
          have hj0 : j0 = j := by simpa using hh'
          refine ⟨cur :: j0 :: t, ⟨rfl, List.chain'_cons.mpr ⟨?_, hc'⟩⟩, ?_⟩
          · show j0 ∈ succsOf ht (sigOf dict cur)
            rw [hj0]
            exact hsucc
          · rw [h2]
            have hlp : (path ++ [j]).length = path.length + 1 := by simp
            rw [hlp]
            simp only [List.length_cons]
            omega
    by_cases hfl : (charRange.foldl
        (dfsChar ht dict fuel path (sigOf dict cur)) (false, res)).1 = true
    · rw [if_pos hfl]
      exact hP _ rfl
    · rw [if_neg hfl]
      rw [dfs_emit_max]
      rcases max_choice ((charRange.foldl
          (dfsChar ht dict fuel path (sigOf dict cur))
          (false, res)).2.max_length) path.length with hm | hm
      · rw [hm]
        exact hP _ rfl
      · rw [hm]
        right
        refine ⟨[cur], ⟨rfl, List.chain'_singleton cur⟩, ?_⟩
        simp only [List.length_cons, List.length_nil]
        omega

/-- Every stored chain has the stored best length (the longest-only
shape invariant), preserved by the whole DFS. -/
theorem dfsF_len_inv (ht : HashTable) (dict : Dictionary) :
    ∀ (fuel cur : Nat) (path : List Nat) (res : ChainResults),
      (∀ c ∈ res.chains, c.length = res.max_length) →
      ∀ c ∈ (dfsF ht dict fuel cur path res).chains,
        c.length = (dfsF ht dict fuel cur path res).max_length := by
  intro fuel
  induction fuel with
  | zero => intro cur path res h; exact h
  | succ fuel ih =>
    intro cur path res h
    rw [dfsF_succ]
    simp only []
    have hP : ∀ q : Bool × ChainResults,
        q = charRange.foldl
          (dfsChar ht dict fuel path (sigOf dict cur)) (false, res) →
        ∀ c ∈ q.2.chains, c.length = q.2.max_length := by
      intro q hq
      subst hq
      refine foldl_pres
        (fun b => ∀ c ∈ b.2.chains, c.length = b.2.max_length) _
        charRange ?_ (false, res) h
      intro b c _ hb
      unfold dfsChar
      cases hfind : hashtable_find ht (insert_sorted (sigOf dict cur) c) with
      | none => exact hb
      | some e =>
        refine foldl_pres
          (fun b2 => ∀ c ∈ b2.2.chains, c.length = b2.2.max_length) _
          e.word_indices ?_ b hb
        intro b2 j _ hb2
        show ∀ c ∈ (dfsVisit ht dict fuel path b2 j).2.chains, _
        rw [dfsVisit_snd]
        exact ih j (path ++ [j]) b2.2 hb2
    by_cases hfl : (charRange.foldl
        (dfsChar ht dict fuel path (sigOf dict cur)) (false, res)).1 = true
    · rw [if_pos hfl]
      exact hP _ rfl
    · rw [if_neg hfl]
      exact dfs_emit_len_inv _ _ (hP _ rfl)

/-! ### Hash-table lookup facts -/

theorem hashtable_find_mem :
    ∀ (ht : HashTable) (s : List Nat) (e : HashEntry),
      hashtable_find ht s = some e → e ∈ ht := by
  intro ht
  induction ht with
  | nil => intro s e h; simp [hashtable_find] at h
  | cons e0 rest ih =>
    intro s e h
    unfold hashtable_find at h
    by_cases hs : e0.signature = s
    · rw [if_pos hs] at h
      have he : e0 = e := by simpa using h
      rw [← he]
      exact List.mem_cons_self _ _
    · rw [if_neg hs] at h
      exact List.mem_cons_of_mem _ (ih s e h)

theorem hashtable_find_sig :
    ∀ (ht : HashTable) (s : List Nat) (e : HashEntry),
      hashtable_find ht s = some e → e.signature = s := by
  intro ht
  induction ht with
  | nil => intro s e h; simp [hashtable_find] at h
  | cons e0 rest ih =>
    intro s e h
    unfold hashtable_find at h
    by_cases hs : e0.signature = s
    · rw [if_pos hs] at h
      have he : e0 = e := by simpa using h
      rw [← he]
      exact hs
    · rw [if_neg hs] at h
      exact ih s e h

/-- Insertion preserves a per-id invariant relating ids to the entry
signature they are filed under. -/
theorem hashtable_insert_sound (R : Nat → List Nat → Prop) :
    ∀ (ht : HashTable) (s : List Nat) (i : Nat),
      (∀ e ∈ ht, ∀ j ∈ e.word_indices, R j e.signature) → R i s →
      ∀ e ∈ hashtable_insert ht s i, ∀ j ∈ e.word_indices,
        R j e.signature := by
  intro ht
  induction ht with
  | nil =>
    intro s i _ hR e he j hj
    simp [hashtable_insert] at he
    subst he
    simp at hj
    rw [hj]
    exact hR
  | cons e0 rest ih =>
    intro s i h hR e he j hj
    unfold hashtable_insert at he
    by_cases hs : e0.signature = s
    · rw [if_pos hs] at he
      rcases List.mem_cons.mp he with he1 | he2
      · subst he1
        simp only [] at hj
        rcases List.mem_append.mp hj with hj1 | hj2
        · exact h e0 (by simp) j hj1
        · simp at hj2
          rw [hj2]
          show R i e0.signature
          rw [hs]
          exact hR
      · exact h e (List.mem_cons_of_mem _ he2) j hj
    · rw [if_neg hs] at he
      rcases List.mem_cons.mp he with he1 | he2
      · subst he1
        exact h e (by simp) j hj
      · exact ih s i (fun e' he' j' hj' => h e' (List.mem_cons_of_mem _ he') j' hj')
          hR e he2 j hj

/-- The index built over a store files every id under its own stored
signature, and only live ids appear. -/
def HtSound (ht : HashTable) (dict : Dictionary) : Prop :=
  ∀ e ∈ ht, ∀ j ∈ e.word_indices,
    j < dict.signatures.length ∧ sigOf dict j = e.signature

theorem build_index_aux_sound (dict : Dictionary) :
    ∀ (sigs : List (List Nat)) (i : Nat) (ht : HashTable),
      (∀ k, k < sigs.length → (i + k) < dict.signatures.length ∧
        sigOf dict (i + k) = sigs.getD k []) →
      (∀ e ∈ ht, ∀ j ∈ e.word_indices,
        j < dict.signatures.length ∧ sigOf dict j = e.signature) →
      ∀ e ∈ build_index_aux sigs i ht, ∀ j ∈ e.word_indices,
        j < dict.signatures.length ∧ sigOf dict j = e.signature := by
  intro sigs
  induction sigs with
  | nil => intro i ht _ hht; exact hht
  | cons s0 rest ih =>
    intro i ht hk hht
    simp only [build_index_aux]
    apply ih (i + 1)
    · intro k hk'
      have hx := hk (k + 1) (by simpa using Nat.succ_lt_succ hk')
      have h1 : i + (k + 1) = i + 1 + k := by omega
      rw [h1] at hx
      simpa using hx
    · apply hashtable_insert_sound
        (fun j t => j < dict.signatures.length ∧ sigOf dict j = t) ht s0 i hht
      have hx := hk 0 (by simp)
      simpa using hx

theorem build_index_sound (dict : Dictionary) :
    HtSound (build_index dict) dict := by
  unfold build_index HtSound
  intro e he j hj
  refine build_index_aux_sound dict dict.signatures 0 [] ?_ (by simp)
    e he j hj
  intro k hk
  constructor
  · simpa using hk
  · simp only [Nat.zero_add]
    rfl

/-! ### Claim C5: every emitted chain is a valid derived-anagram chain -/

theorem is_derived_insert (s : List Nat) (c : Nat) :
    is_derived_signature s (insert_sorted s c) = true := by
  unfold is_derived_signature
  rw [if_pos (insert_sorted_length s c), derivedScan_insert]

/-- One derived step between live ids, phrased with the code's
`is_derived_signature` on the stored signatures. -/
def derivedStep (dict : Dictionary) (a b : Nat) : Prop :=
  b < dict.signatures.length ∧
  is_derived_signature (sigOf dict a) (sigOf dict b) = true

theorem dfsF_chains_valid (ht : HashTable) (dict : Dictionary)
    (hsound : HtSound ht dict) :
    ∀ (fuel cur : Nat) (path : List Nat) (res : ChainResults),
      path.getLast? = some cur →
      List.Chain' (derivedStep dict) path →
      (∀ c ∈ res.chains, List.Chain' (derivedStep dict) c) →
      ∀ c ∈ (dfsF ht dict fuel cur path res).chains,
        List.Chain' (derivedStep dict) c := by
  intro fuel
  induction fuel with
  | zero => intro cur path res _ _ h; exact h
  | succ fuel ih =>
    intro cur path res hlast hpath h
    rw [dfsF_succ]
    simp only []
    have hP : ∀ q : Bool × ChainResults,
        q = charRange.foldl
          (dfsChar ht dict fuel path (sigOf dict cur)) (false, res) →
        ∀ c ∈ q.2.chains, List.Chain' (derivedStep dict) c := by
      intro q hq
      subst hq
      refine foldl_pres
        (fun b => ∀ c ∈ b.2.chains, List.Chain' (derivedStep dict) c) _
        charRange ?_ (false, res) h
      intro b c _ hb
      unfold dfsChar
      cases hfind : hashtable_find ht (insert_sorted (sigOf dict cur) c) with
      | none => exact hb
      | some e =>
        refine foldl_pres
          (fun b2 => ∀ c ∈ b2.2.chains, List.Chain' (derivedStep dict) c) _
          e.word_indices ?_ b hb
        intro b2 j hj hb2
        show ∀ x ∈ (dfsVisit ht dict fuel path b2 j).2.chains, _
        rw [dfsVisit_snd]
        have hje := hsound e (hashtable_find_mem ht _ e hfind) j hj
        have hsig : sigOf dict j = insert_sorted (sigOf dict cur) c := by
          rw [hje.2, hashtable_find_sig ht _ e hfind]
        have hder : derivedStep dict cur j :=
          ⟨hje.1, by rw [hsig]; exact is_derived_insert _ _⟩
        refine ih j (path ++ [j]) b2.2 (List.getLast?_concat _) ?_ hb2
        refine List.chain'_append.mpr ⟨hpath, List.chain'_singleton j, ?_⟩
        intro x hx y hy
        have hxc : x = cur := by
          rw [hlast] at hx
          exact (by simpa using hx : cur = x).symm
        have hyj : y = j := (by simpa using hy : j = y).symm
        rw [hxc, hyj]
        exact hder
    by_cases hfl : (charRange.foldl
        (dfsChar ht dict fuel path (sigOf dict cur)) (false, res)).1 = true
    · rw [if_pos hfl]
      exact hP _ rfl
    · rw [if_neg hfl]
      exact dfs_emit_all _ _ _ (hP _ rfl) hpath

/-- C5: every chain stored by `find_longest_chains` is a valid derived
chain — each consecutive id pair satisfies `is_derived_signature` on the
stored signatures (each successor signature is the predecessor signature
with exactly one byte added). -/
theorem C5_chain_validity (dict : Dictionary) (start : List Nat)
    (res : ChainResults)
    (h1 : find_longest_chains (build_index dict) dict start = some res) :
    ∀ c ∈ res.chains, List.Chain' (derivedStep dict) c := by
  unfold find_longest_chains at h1
  by_cases hidx : find_word_index dict start < 0
  · rw [if_pos hidx] at h1
    exact absurd h1 (by simp)
  · rw [if_neg hidx] at h1
    have h2 : dfs_dynamic (build_index dict) dict
        (find_word_index dict start).toNat
        [(find_word_index dict start).toNat] chain_results_create = res := by
      simpa using h1
    rw [← h2]
    unfold dfs_dynamic
    exact dfsF_chains_valid (build_index dict) dict (build_index_sound dict)
      _ _ _ _ rfl (List.chain'_singleton _)
      (by intro c hc; simp [chain_results_create] at hc)

theorem C5_chain_validity_witness :
    find_longest_chains (build_index ⟨[[97], [97, 98]], [[97], [97, 98]]⟩)
      ⟨[[97], [97, 98]], [[97], [97, 98]]⟩ [97] = some ⟨[[0, 1]], 2⟩ ∧
    ∀ c ∈ (ChainResults.mk [[0, 1]] 2).chains,
      List.Chain' (derivedStep ⟨[[97], [97, 98]], [[97], [97, 98]]⟩) c := by
  constructor
  · decide
  · exact C5_chain_validity ⟨[[97], [97, 98]], [[97], [97, 98]]⟩ [97]
      ⟨[[0, 1]], 2⟩ (by decide)

/-! ### Completeness of the built index -/

theorem hashtable_insert_self :
    ∀ (ht : HashTable) (s : List Nat) (i : Nat),
      ∃ e, hashtable_find (hashtable_insert ht s i) s = some e ∧
        i ∈ e.word_indices := by
  intro ht
  induction ht with
  | nil =>
    intro s i
    refine ⟨⟨s, [i]⟩, ?_, by simp⟩
    simp [hashtable_insert, hashtable_find]
  | cons e0 rest ih =>
    intro s i
    by_cases hs : e0.signature = s
    · refine ⟨⟨e0.signature, e0.word_indices ++ [i]⟩, ?_, by simp⟩
      unfold hashtable_insert
      rw [if_pos hs]
      unfold hashtable_find
      rw [if_pos hs]
    · rcases ih s i with ⟨e, hfind, hmem⟩
      refine ⟨e, ?_, hmem⟩
      unfold hashtable_insert
      rw [if_neg hs]
      unfold hashtable_find
      rw [if_neg hs]
      exact hfind

theorem hashtable_insert_find_mono :
    ∀ (ht : HashTable) (s t : List Nat) (k : Nat) (e : HashEntry),
      hashtable_find ht s = some e →
      ∃ e', hashtable_find (hashtable_insert ht t k) s = some e' ∧
        ∀ j ∈ e.word_indices, j ∈ e'.word_indices := by
  intro ht
  induction ht with
  | nil => intro s t k e h; simp [hashtable_find] at h
  | cons e0 rest ih =>
    intro s t k e h
    unfold hashtable_find at h
    by_cases hs : e0.signature = s
    · rw [if_pos hs] at h
      have he : e0 = e := by simpa using h
      by_cases hst : e0.signature = t
      · refine ⟨⟨e0.signature, e0.word_indices ++ [k]⟩, ?_, ?_⟩
        · unfold hashtable_insert
          rw [if_pos hst]
          unfold hashtable_find
          rw [if_pos hs]
        · intro j hj
          rw [← he] at hj
          simp [hj]
      · refine ⟨e, ?_, fun j hj => hj⟩
        unfold hashtable_insert
        rw [if_neg hst]
        unfold hashtable_find
        rw [if_pos hs, he]
    · rw [if_neg hs] at h
      by_cases hst : e0.signature = t
      · refine ⟨e, ?_, fun j hj => hj⟩
        unfold hashtable_insert
        rw [if_pos hst]
        unfold hashtable_find
        rw [if_neg hs]
        exact h
      · rcases ih s t k e h with ⟨e', hfind', hsub⟩
        refine ⟨e', ?_, hsub⟩
        unfold hashtable_insert
        rw [if_neg hst]
        unfold hashtable_find
        rw [if_neg hs]
        exact hfind'

theorem build_index_aux_find_mono (s : List Nat) :
    ∀ (sigs : List (List Nat)) (i : Nat) (ht : HashTable) (e : HashEntry),
      hashtable_find ht s = some e →
      ∃ e', hashtable_find (build_index_aux sigs i ht) s = some e' ∧
        ∀ j ∈ e.word_indices, j ∈ e'.word_indices := by
  intro sigs
  induction sigs with
  | nil => intro i ht e h; exact ⟨e, h, fun j hj => hj⟩
  | cons s0 rest ih =>
    intro i ht e h
    simp only [build_index_aux]
    rcases hashtable_insert_find_mono ht s s0 i e h with ⟨e1, h1, hsub1⟩
    rcases ih (i + 1) (hashtable_insert ht s0 i) e1 h1 with ⟨e2, h2, hsub2⟩
    exact ⟨e2, h2, fun j hj => hsub2 j (hsub1 j hj)⟩

theorem build_index_aux_complete :
    ∀ (sigs : List (List Nat)) (i : Nat) (ht : HashTable) (k : Nat),
      k < sigs.length →
      ∃ e, hashtable_find (build_index_aux sigs i ht) (sigs.getD k []) =
          some e ∧ (i + k) ∈ e.word_indices := by
  intro sigs
  induction sigs with
  | nil => intro i ht k hk; simp at hk
  | cons s0 rest ih =>
    intro i ht k hk
    simp only [build_index_aux]
    cases k with
    | zero =>
      rcases hashtable_insert_self ht s0 i with ⟨e, hfind, hmem⟩
      rcases build_index_aux_find_mono s0 rest (i + 1) _ e hfind with
        ⟨e', h', hsub⟩
      refine ⟨e', ?_, ?_⟩
      · simpa using h'
      · simpa using hsub i hmem
    | succ k' =>
      have hk' : k' < rest.length := by simpa using hk
      rcases ih (i + 1) (hashtable_insert ht s0 i) k' hk' with ⟨e, hfind, hmem⟩
      refine ⟨e, by simpa using hfind, ?_⟩
      have hik : i + (k' + 1) = i + 1 + k' := by omega
      rw [hik]
      exact hmem

theorem build_index_complete (dict : Dictionary) (j : Nat)
    (hj : j < dict.signatures.length) :
    ∃ e, hashtable_find (build_index dict) (sigOf dict j) = some e ∧
      j ∈ e.word_indices := by
  unfold build_index
  rcases build_index_aux_complete dict.signatures 0 [] j hj with ⟨e, hfind, hmem⟩
  refine ⟨e, hfind, by simpa using hmem⟩

/-! ### `insert_sorted` as sorted insertion -/

theorem insert_sorted_perm (s : List Nat) (c : Nat) :
    (insert_sorted s c).Perm (c :: s) := by
  induction s with
  | nil => exact List.Perm.refl _
  | cons x xs ih =>
    unfold insert_sorted
    by_cases h : c < x
    · rw [if_pos h]
    · rw [if_neg h]
      exact (List.Perm.cons x ih).trans (List.Perm.swap c x xs)

theorem insert_sorted_sorted (s : List Nat) (c : Nat)
    (hs : List.Sorted (· ≤ ·) s) :
    List.Sorted (· ≤ ·) (insert_sorted s c) := by
  induction s with
  | nil => simp [insert_sorted]
  | cons x xs ih =>
    rw [List.sorted_cons] at hs
    unfold insert_sorted
    by_cases h : c < x
    · rw [if_pos h]
      rw [List.sorted_cons]
      refine ⟨?_, List.sorted_cons.mpr hs⟩
      intro b hb
      rcases List.mem_cons.mp hb with hb1 | hb2
      · omega
      · have := hs.1 b hb2
        omega
    · rw [if_neg h]
      rw [List.sorted_cons]
      refine ⟨?_, ih hs.2⟩
      intro b hb
      have hb' := (insert_sorted_perm xs c).mem_iff.mp hb
      rcases List.mem_cons.mp hb' with hb1 | hb2
      · omega
      · exact hs.1 b hb2

/-! ### Decomposing a positive `is_derived_signature` -/

theorem derivedScan_skip_eq :
    ∀ (t s : List Nat), derivedScan s t true = true → s = t := by
  intro t
  induction t with
  | nil =>
    intro s h
    cases s with
    | nil => rfl
    | cons x xs => simp [derivedScan] at h
  | cons y ys ih =>
    intro s h
    cases s with
    | nil => simp [derivedScan] at h
    | cons x xs =>
      unfold derivedScan at h
      by_cases hxy : x = y
      · rw [if_pos hxy] at h
        rw [hxy, ih xs h]
      · rw [if_neg hxy] at h
        simp at h

theorem derivedScan_decomp :
    ∀ (t s : List Nat), t.length = s.length + 1 →
      derivedScan s t false = true →
      ∃ p c q, s = p ++ q ∧ t = p ++ c :: q := by
  intro t
  induction t with
  | nil =>
    intro s hlen _
    simp at hlen
  | cons y ys ih =>
    intro s hlen h
    cases s with
    | nil =>
      unfold derivedScan at h
      simp only [Bool.false_eq_true, if_false] at h
      have hys : ([] : List Nat) = ys := derivedScan_skip_eq ys [] h
      exact ⟨[], y, [], rfl, by rw [← hys]; simp⟩
    | cons x xs =>
      unfold derivedScan at h
      by_cases hxy : x = y
      · rw [if_pos hxy] at h
        have hlen' : ys.length = xs.length + 1 := by simpa using hlen
        rcases ih xs hlen' h with ⟨p, c, q, hs, ht⟩
        refine ⟨x :: p, c, q, by rw [hs]; rfl, ?_⟩
        rw [hxy, ht]
        rfl
      · rw [if_neg hxy] at h
        simp only [Bool.false_eq_true, if_false] at h
        have hys : x :: xs = ys := derivedScan_skip_eq ys (x :: xs) h
        exact ⟨[], y, x :: xs, rfl, by rw [← hys]; simp⟩

theorem is_derived_decomp (s t : List Nat)
    (h : is_derived_signature s t = true) :
    ∃ p c q, s = p ++ q ∧ t = p ++ c :: q := by
  unfold is_derived_signature at h
  by_cases hlen : t.length = s.length + 1
  · rw [if_pos hlen] at h
    exact derivedScan_decomp t s hlen h
  · rw [if_neg hlen] at h
    simp at h

/-- A positive `is_derived_signature` between sorted signatures is
exactly a sorted one-byte insertion. -/
theorem insert_sorted_of_derived (s t : List Nat)
    (hs : List.Sorted (· ≤ ·) s) (ht : List.Sorted (· ≤ ·) t)
    (hd : is_derived_signature s t = true) :
    ∃ c, c ∈ t ∧ insert_sorted s c = t := by
  rcases is_derived_decomp s t hd with ⟨p, c, q, hsq, htq⟩
  refine ⟨c, by rw [htq]; simp, ?_⟩
  have hperm : (insert_sorted s c).Perm t := by
    have h1 : (insert_sorted s c).Perm (c :: (p ++ q)) := by
      rw [← hsq]
      exact insert_sorted_perm s c
    have h2 : (p ++ c :: q).Perm (c :: (p ++ q)) := List.perm_middle
    rw [htq]
    exact h1.trans h2.symm
  exact List.eq_of_perm_of_sorted hperm (insert_sorted_sorted s c hs) ht

/-! ### Engine steps versus spec-level derived steps -/

/-- A derived-anagram chain at the spec level, starting at id `i`:
consecutive stored signatures satisfy `is_derived_signature` and every
stepped-to id is live. -/
def DerChainFrom (dict : Dictionary) (i : Nat) (l : List Nat) : Prop :=
  l.head? = some i ∧ List.Chain' (derivedStep dict) l

theorem sigOf_mem (dict : Dictionary) (i : Nat)
    (hi : i < dict.signatures.length) : sigOf dict i ∈ dict.signatures := by
  unfold sigOf
  rw [List.getD_eq_getElem _ _ hi]
  exact List.getElem_mem hi

theorem stepRel_derivedStep (dict : Dictionary) (a b : Nat)
    (h : StepRel (build_index dict) dict a b) : derivedStep dict a b := by
  unfold StepRel succsOf at h
  rcases List.mem_flatMap.mp h with ⟨c, _, hbc⟩
  cases hfind : hashtable_find (build_index dict)
      (insert_sorted (sigOf dict a) c) with
  | none => rw [hfind] at hbc; simp at hbc
  | some e =>
    rw [hfind] at hbc
    simp only [] at hbc
    have hje := build_index_sound dict e
      (hashtable_find_mem _ _ e hfind) b hbc
    refine ⟨hje.1, ?_⟩
    rw [hje.2, hashtable_find_sig _ _ e hfind]
    exact is_derived_insert _ _

theorem stepRel_sig_len (dict : Dictionary) (a b : Nat)
    (h : StepRel (build_index dict) dict a b) :
    (sigOf dict b).length = (sigOf dict a).length + 1 ∧
    b < dict.signatures.length := by
  unfold StepRel succsOf at h
  rcases List.mem_flatMap.mp h with ⟨c, _, hbc⟩
  cases hfind : hashtable_find (build_index dict)
      (insert_sorted (sigOf dict a) c) with
  | none => rw [hfind] at hbc; simp at hbc
  | some e =>
    rw [hfind] at hbc
    simp only [] at hbc
    have hje := build_index_sound dict e
      (hashtable_find_mem _ _ e hfind) b hbc
    refine ⟨?_, hje.1⟩
    rw [hje.2, hashtable_find_sig _ _ e hfind]
    exact insert_sorted_length _ _

theorem derivedStep_stepRel (dict : Dictionary)
    (hsorted : ∀ s ∈ dict.signatures, List.Sorted (· ≤ ·) s)
    (hchars : ∀ s ∈ dict.signatures, ∀ b ∈ s, ASCII_MIN ≤ b ∧ b ≤ ASCII_MAX)
    (a b : Nat) (ha : a < dict.signatures.length)
    (h : derivedStep dict a b) : StepRel (build_index dict) dict a b := by
  rcases h with ⟨hb, hd⟩
  have hsa := sigOf_mem dict a ha
  have hsb := sigOf_mem dict b hb
  rcases insert_sorted_of_derived (sigOf dict a) (sigOf dict b)
    (hsorted _ hsa) (hsorted _ hsb) hd with ⟨c, hct, hins⟩
  have hcr : c ∈ charRange := by
    have hcb := hchars _ hsb c hct
    unfold charRange ASCII_MIN ASCII_MAX at *
    rw [List.mem_range'_1]
    omega
  rcases build_index_complete dict b hb with ⟨e, hfind, hmem⟩
  unfold StepRel succsOf
  refine List.mem_flatMap.mpr ⟨c, hcr, ?_⟩
  rw [hins, hfind]
  exact hmem

theorem chain_derived_of_stepRel (dict : Dictionary) (l : List Nat) (i : Nat)
    (h : IsChainFrom (build_index dict) dict i l) : DerChainFrom dict i l :=
  ⟨h.1, h.2.imp fun _ _ hr => stepRel_derivedStep dict _ _ hr⟩

theorem chain_stepRel_of_derived (dict : Dictionary)
    (hsorted : ∀ s ∈ dict.signatures, List.Sorted (· ≤ ·) s)
    (hchars : ∀ s ∈ dict.signatures, ∀ b ∈ s, ASCII_MIN ≤ b ∧ b ≤ ASCII_MAX) :
    ∀ (l : List Nat) (i : Nat), i < dict.signatures.length →
      DerChainFrom dict i l → IsChainFrom (build_index dict) dict i l := by
  intro l
  induction l with
  | nil => intro i _ h; exact absurd h.1 (by simp)
  | cons a t ih =>
    intro i hi h
    have ha : a = i := by simpa using h.1
    cases t with
    | nil => exact ⟨h.1, List.chain'_singleton a⟩
    | cons b t' =>
      have hDer := List.chain'_cons.mp h.2
      have haLen : a < dict.signatures.length := by rw [ha]; exact hi
      have hstep := derivedStep_stepRel dict hsorted hchars a b haLen hDer.1
      rcases ih b hDer.1.1 ⟨rfl, hDer.2⟩ with ⟨_, hchain⟩
      exact ⟨h.1, List.chain'_cons.mpr ⟨hstep, hchain⟩⟩

/-! ### Chains are length-bounded by the signature lengths -/

theorem chain_sig_len_bound (dict : Dictionary)
    (hlen : ∀ s ∈ dict.signatures, s.length < MAX_CHAIN_DEPTH) :
    ∀ (l : List Nat) (i : Nat),
      IsChainFrom (build_index dict) dict i l →
      i < dict.signatures.length →
      (sigOf dict i).length + l.length ≤ MAX_CHAIN_DEPTH := by
  intro l
  induction l with
  | nil => intro i h _; exact absurd h.1 (by simp)
  | cons a t ih =>
    intro i h hi
    have ha : a = i := by simpa using h.1
    cases t with
    | nil =>
      have := hlen _ (sigOf_mem dict i hi)
      simp only [List.length_cons, List.length_nil]
      omega
    | cons b t' =>
      have hStep := List.chain'_cons.mp h.2
      have hsl := stepRel_sig_len dict a b hStep.1
      have hrec := ih b ⟨rfl, hStep.2⟩ hsl.2
      rw [ha] at hsl
      simp only [List.length_cons] at hrec ⊢
      omega

/-! ### Any chain extends to a leaf chain -/

theorem lastOf_spec (l : List Nat) (h : l ≠ []) :
    l.getLast? = some (lastOf l) := by
  cases hg : l.getLast? with
  | none => exact absurd (List.getLast?_eq_none_iff.mp hg) h
  | some a => simp [lastOf, hg]

theorem isChain_append (ht : HashTable) (dict : Dictionary) (i : Nat)
    (l : List Nat) (j : Nat) (h : IsChainFrom ht dict i l)
    (hstep : StepRel ht dict (lastOf l) j) :
    IsChainFrom ht dict i (l ++ [j]) := by
  have hne : l ≠ [] := by
    intro h0
    rw [h0] at h
    exact absurd h.1 (by simp)
  constructor
  · rcases l with _ | ⟨a, t⟩
    · exact absurd rfl hne
    · simpa using h.1
  · refine List.chain'_append.mpr ⟨h.2, List.chain'_singleton j, ?_⟩
    intro x hx y hy
    have hxl : x = lastOf l := by
      rw [lastOf_spec l hne] at hx
      exact (by simpa using hx : lastOf l = x).symm
    have hyj : y = j := (by simpa using hy : j = y).symm
    rw [hxl, hyj]
    exact hstep

theorem chain_nonempty (ht : HashTable) (dict : Dictionary) (i : Nat)
    (l : List Nat) (h : IsChainFrom ht dict i l) : l ≠ [] := by
  intro h0
  rw [h0] at h
  exact absurd h.1 (by simp)

theorem extend_to_leaf (dict : Dictionary)
    (hlen : ∀ s ∈ dict.signatures, s.length < MAX_CHAIN_DEPTH)
    (i : Nat) (hi : i < dict.signatures.length) :
    ∀ (fuel : Nat) (l : List Nat),
      MAX_CHAIN_DEPTH + 1 - l.length ≤ fuel →
      IsChainFrom (build_index dict) dict i l →
      ∃ l', IsChainFrom (build_index dict) dict i l' ∧
        succsOf (build_index dict) (sigOf dict (lastOf l')) = [] ∧
        l.length ≤ l'.length := by
  intro fuel
  induction fuel with
  | zero =>
    intro l hf hchain
    have := chain_sig_len_bound dict hlen l i hchain hi
    omega
  | succ fuel ih =>
    intro l hf hchain
    by_cases hleaf : succsOf (build_index dict) (sigOf dict (lastOf l)) = []
    · exact ⟨l, hchain, hleaf, le_refl _⟩
    · cases hs : succsOf (build_index dict) (sigOf dict (lastOf l)) with
      | nil => exact absurd hs hleaf
      | cons j js =>
        have hstep : StepRel (build_index dict) dict (lastOf l) j := by
          unfold StepRel
          rw [hs]
          simp
        have hchain2 := isChain_append _ dict i l j hchain hstep
        have hf2 : MAX_CHAIN_DEPTH + 1 - (l ++ [j]).length ≤ fuel := by
          simp only [List.length_append, List.length_cons, List.length_nil]
          omega
        rcases ih (l ++ [j]) hf2 hchain2 with ⟨l', h1, h2, h3⟩
        refine ⟨l', h1, h2, le_trans ?_ h3⟩
        simp

/-! ### Resolving the start word -/

theorem find_word_index_aux_lt :
    ∀ (ws : List (List Nat)) (w : List Nat) (i k : Nat),
      find_word_index_aux ws w i = Int.ofNat k → i ≤ k ∧ k - i < ws.length := by
  intro ws
  induction ws with
  | nil =>
    intro w i k h
    unfold find_word_index_aux at h
    have hk : (0 : Int) ≤ Int.ofNat k := Int.ofNat_nonneg k
    rw [← h] at hk
    omega
  | cons w0 rest ih =>
    intro w i k h
    unfold find_word_index_aux at h
    by_cases hw : w0 = w
    · rw [if_pos hw] at h
      have h' : i = k := Int.ofNat.inj h
      simp only [List.length_cons]
      omega
    · rw [if_neg hw] at h
      have := ih w (i + 1) k h
      simp only [List.length_cons]
      omega

theorem find_word_index_lt (dict : Dictionary) (w : List Nat) (k : Nat)
    (h : find_word_index dict w = Int.ofNat k) : k < dict.words.length := by
  have := find_word_index_aux_lt dict.words w 0 k h
  omega

/-! ### Claim C4: the longest-only invariant -/

/-- C4: when `find_longest_chains` returns a result set (and no cap
truncation can apply: every stored signature is shorter than
`MAX_CHAIN_DEPTH`), every stored chain has length `max_length`, and
`max_length` is the true maximum length over all derived chains from the
start id; moreover the accumulator discards strictly shorter candidates
and resets the collection on a strictly longer one. -/
theorem C4_longest_only_invariant (dict : Dictionary) (start : List Nat)
    (res : ChainResults)
    (h0 : dict.signatures.length = dict.words.length)
    (h1 : find_longest_chains (build_index dict) dict start = some res)
    (h2 : ∀ s ∈ dict.signatures, s.length < MAX_CHAIN_DEPTH)
    (h3 : ∀ s ∈ dict.signatures, s ≠ [])
    (h4 : ∀ s ∈ dict.signatures, ∀ b ∈ s, ASCII_MIN ≤ b ∧ b ≤ ASCII_MAX)
    (h5 : ∀ s ∈ dict.signatures, List.Sorted (· ≤ ·) s) :
    (∀ c ∈ res.chains, c.length = res.max_length) ∧
    (∀ l, DerChainFrom dict (find_word_index dict start).toNat l →
      l.length ≤ res.max_length) ∧
    (∃ l, DerChainFrom dict (find_word_index dict start).toNat l ∧
      l.length = res.max_length) ∧
    (∀ (r : ChainResults) (p : List Nat), p.length < r.max_length →
      dfs_emit r p = r) ∧
    (∀ (r : ChainResults) (p : List Nat), r.max_length < p.length →
      dfs_emit r p = ⟨[p], p.length⟩) := by
  unfold find_longest_chains at h1
  by_cases hidx : find_word_index dict start < 0
  · rw [if_pos hidx] at h1
    exact absurd h1 (by simp)
  rw [if_neg hidx] at h1
  set I := (find_word_index dict start).toNat with hI
  have hres : dfs_dynamic (build_index dict) dict I [I]
      chain_results_create = res := by
    simpa using h1
  have hfwi : find_word_index dict start = Int.ofNat I := by
    rw [hI]
    exact (Int.toNat_of_nonneg (by omega)).symm
  have hIw : I < dict.words.length := find_word_index_lt dict start I hfwi
  have hIs : I < dict.signatures.length := by omega
  have hsigI : 1 ≤ (sigOf dict I).length := by
    have hne := h3 _ (sigOf_mem dict I hIs)
    cases hsg : sigOf dict I with
    | nil => exact absurd hsg hne
    | cons a t => simp
  have hdfs : dfsF (build_index dict) dict (MAX_CHAIN_DEPTH - 1) I [I]
      chain_results_create = res := by
    unfold dfs_dynamic at hres
    simpa using hres
  -- every engine chain from I extends to a leaf chain short enough for
  -- the depth budget, so its length is dominated by the stored best
  have hUB : ∀ l, IsChainFrom (build_index dict) dict I l →
      l.length ≤ res.max_length := by
    intro l hl
    rcases extend_to_leaf dict h2 I hIs (MAX_CHAIN_DEPTH + 1) l
      (Nat.sub_le _ _) hl with ⟨l', hl', hleaf, hge⟩
    have hbound := chain_sig_len_bound dict h2 l' I hl' hIs
    have hlb := dfsF_max_lb (build_index dict) dict (MAX_CHAIN_DEPTH - 1)
      l' I [I] chain_results_create hl' hleaf (by omega) (by simp)
    rw [hdfs] at hlb
    simp only [List.length_cons, List.length_nil] at hlb
    omega
  have hge1 : 1 ≤ res.max_length := by
    have hsingle : IsChainFrom (build_index dict) dict I [I] :=
      ⟨rfl, List.chain'_singleton I⟩
    have := hUB [I] hsingle
    simpa using this
  have hAt := dfsF_max_attained (build_index dict) dict
    (MAX_CHAIN_DEPTH - 1) I [I] chain_results_create (by simp)
  rw [hdfs] at hAt
  have hInv := dfsF_len_inv (build_index dict) dict (MAX_CHAIN_DEPTH - 1)
    I [I] chain_results_create
    (by intro c hc; simp [chain_results_create] at hc)
  rw [hdfs] at hInv
  refine ⟨hInv, ?_, ?_, ?_, ?_⟩
  · intro l hder
    exact hUB l (chain_stepRel_of_derived dict h5 h4 l I hIs hder)
  · rcases hAt with h0' | ⟨l, hl, hmax⟩
    · rw [h0'] at hge1
      simp [chain_results_create] at hge1
    · refine ⟨l, chain_derived_of_stepRel dict l I hl, ?_⟩
      rw [hmax]
      simp
  · intro r p hp
    exact dfs_emit_short r p hp
  · intro r p hp
    exact dfs_emit_long r p hp

theorem C4_longest_only_invariant_witness :
    ((⟨[[97], [97, 98]], [[97], [97, 98]]⟩ : Dictionary).signatures.length =
        (⟨[[97], [97, 98]], [[97], [97, 98]]⟩ : Dictionary).words.length ∧
      find_longest_chains (build_index ⟨[[97], [97, 98]], [[97], [97, 98]]⟩)
        ⟨[[97], [97, 98]], [[97], [97, 98]]⟩ [97] = some ⟨[[0, 1]], 2⟩ ∧
      (∀ s ∈ (⟨[[97], [97, 98]], [[97], [97, 98]]⟩ : Dictionary).signatures,
        s.length < MAX_CHAIN_DEPTH) ∧
      (∀ s ∈ (⟨[[97], [97, 98]], [[97], [97, 98]]⟩ : Dictionary).signatures,
        s ≠ []) ∧
      (∀ s ∈ (⟨[[97], [97, 98]], [[97], [97, 98]]⟩ : Dictionary).signatures,
        ∀ b ∈ s, ASCII_MIN ≤ b ∧ b ≤ ASCII_MAX) ∧
      (∀ s ∈ (⟨[[97], [97, 98]], [[97], [97, 98]]⟩ : Dictionary).signatures,
        List.Sorted (· ≤ ·) s)) ∧
    ((∀ c ∈ (ChainResults.mk [[0, 1]] 2).chains, c.length = 2) ∧
      (∃ l, DerChainFrom ⟨[[97], [97, 98]], [[97], [97, 98]]⟩
        (find_word_index ⟨[[97], [97, 98]], [[97], [97, 98]]⟩ [97]).toNat l ∧
        l.length = 2)) := by
  refine ⟨⟨by decide, by decide, by decide, by decide, by decide, by decide⟩,
    ?_, ?_⟩
  · exact (C4_longest_only_invariant ⟨[[97], [97, 98]], [[97], [97, 98]]⟩
      [97] ⟨[[0, 1]], 2⟩ (by decide) (by decide) (by decide) (by decide)
      (by decide) (by decide)).1
  · exact (C4_longest_only_invariant ⟨[[97], [97, 98]], [[97], [97, 98]]⟩
      [97] ⟨[[0, 1]], 2⟩ (by decide) (by decide) (by decide) (by decide)
      (by decide) (by decide)).2.2.1

end AnagramChain
